import Mathlib

/-!
Verification of the guardrail post-processor of the lead-response assistant
(`app/core/guardrails.py`).

The engine is shallowly embedded over `List Char`:
  - each compiled regex of the `_RULES` table becomes a term of a small
    backtracking regex AST (`RE`) whose matcher reproduces Python `re`
    semantics for these patterns: leftmost position wins, alternatives are
    tried left to right, quantifiers are greedy with backtracking, matching
    is case-insensitive via `pyLower`, and `\b` inspects the previous and
    next character;
  - `re.findall` / `re.sub` become a single left-to-right scanner
    (`scanSub`) that replaces every non-overlapping match and counts them
    (Python performs the same scan for both calls, so one scanner is
    faithful);
  - the phrase blocklist pass, the whitespace normalisation
    (`re.sub("  +")`, `str.strip`, `re.sub("\n{3,}")`) and the audit-record
    construction are embedded step for step from the source.

Character-level functions (`str.lower`, `\w`, `\d`, `\s`, `str.strip`) are
modelled on their ASCII behaviour; every concrete string appearing in the
rule table and in the theorems below is ASCII (plus the rupee sign, which
all of these functions leave unchanged).
-/

set_option autoImplicit false

namespace Guardrails

/-- Apostrophe character (written via its code point). -/
def apos : Char := Char.ofNat 39

/-- Model of `str.lower` on one character (ASCII letters). -/
def pyLower (c : Char) : Char :=
  if 'A' ≤ c ∧ c ≤ 'Z' then Char.ofNat (c.toNat + 32) else c

/-- Model of Python whitespace (`\s`, `str.strip` default set), ASCII part. -/
def isPySpace (c : Char) : Bool :=
  c == ' ' || c == '\t' || c == '\n' || c == '\r' || c == '\x0b' || c == '\x0c'

/-- Model of `\w` (ASCII part): letters, digits, underscore. -/
def isWordChar (c : Char) : Bool :=
  c.isAlpha || c.isDigit || c == '_'

/-- Regex AST covering the constructs used by the `_RULES` table. -/
inductive RE : Type where
  | eps  : RE
  | cls  : (Char → Bool) → RE
  | cat  : RE → RE → RE
  | alt  : RE → RE → RE
  | star : RE → RE
  | wb   : RE

/-- Case-insensitive literal character (patterns are compiled with
`re.IGNORECASE`; the stored character is lowercase). -/
def chC (c : Char) : RE := RE.cls (fun x => pyLower x == c)

/-- Case-insensitive literal word. -/
def litS (s : String) : RE := (s.toList.map chC).foldr RE.cat RE.eps

/-- Greedy `?`. -/
def ropt (a : RE) : RE := RE.alt a RE.eps

/-- Greedy `+`. -/
def rplus (a : RE) : RE := RE.cat a (RE.star a)

/-- Character class `\d`. -/
def dCls : RE := RE.cls Char.isDigit

/-- Character class `[\d,]`. -/
def dComma : RE := RE.cls (fun c => c.isDigit || c == ',')

/-- Character class `\s`. -/
def sCls : RE := RE.cls isPySpace

/-- Word-boundary test between a previous character (none at the start of
the text) and the remaining input. -/
def wordBoundary (prev : Option Char) (s : List Char) : Bool :=
  let l := match prev with | none => false | some c => isWordChar c
  let r := match s with | [] => false | c :: _ => isWordChar c
  l != r

/-- Backtracking matcher. `mrun fuel re prev s` returns every way the
pattern can match a prefix of `s`, as `(last consumed character, rest)`
pairs, in the depth-first order of a Python-style backtracking engine:
alternatives left first, `star` longest first. `fuel` bounds the recursion
depth; every call decreases it, and any fuel exceeding the pattern depth
plus the input length is enough (the callers below supply that much). -/
def mrun : Nat → RE → Option Char → List Char → List (Option Char × List Char)
  | 0, _, _, _ => []
  | _ + 1, RE.eps, prev, s => [(prev, s)]
  | _ + 1, RE.cls f, _, s =>
    match s with
    | [] => []
    | c :: rest => if f c then [(some c, rest)] else []
  | fuel + 1, RE.cat a b, prev, s =>
    (mrun fuel a prev s).flatMap (fun st => mrun fuel b st.1 st.2)
  | fuel + 1, RE.alt a b, prev, s =>
    mrun fuel a prev s ++ mrun fuel b prev s
  | fuel + 1, RE.star a, prev, s =>
    ((mrun fuel a prev s).flatMap (fun st => mrun fuel (RE.star a) st.1 st.2)) ++ [(prev, s)]
  | _ + 1, RE.wb, prev, s =>
    if wordBoundary prev s then [(prev, s)] else []

/-- Fuel that is always sufficient for the patterns of the rule table. -/
def mfuel (s : List Char) : Nat := s.length + 300

/-- Left-to-right scan of `re.sub` / `re.findall`: at each position try the
pattern (first backtracking result, as Python); on a match, emit the
replacement, count it, and resume after the match; otherwise advance one
character. The patterns of the rule table never match the empty string
(every alternative contains a mandatory character), so a zero-width match
is treated as a non-match to keep the function total. -/
def scanSub : Nat → RE → List Char → Option Char → List Char → List Char × Nat
  | 0, _, _, _, s => (s, 0)
  | fuel + 1, re, repl, prev, s =>
    match s with
    | [] => ([], 0)
    | c :: rest =>
      match (mrun (mfuel s) re prev s).head? with
      | some st =>
        if s.length - st.2.length == 0 then
          let t := scanSub fuel re repl (some c) rest
          (c :: t.1, t.2)
        else
          let t := scanSub fuel re repl st.1 st.2
          (repl ++ t.1, t.2 + 1)
      | none =>
        let t := scanSub fuel re repl (some c) rest
        (c :: t.1, t.2)

/-- Substring test (`phrase in text`, both sides already lowercased). -/
def containsSub (p : List Char) : List Char → Bool
  | [] => p.isEmpty
  | c :: rest => (List.take p.length (c :: rest) == p) || containsSub p rest

/-- Case-insensitive literal replacement,
`re.sub(re.escape(phrase), repl, s, flags=re.IGNORECASE)`: the phrase is
lowercase, the text keeps its case. Left-to-right, non-overlapping. -/
def replaceCI : Nat → List Char → List Char → List Char → List Char
  | 0, _, _, s => s
  | fuel + 1, p, repl, s =>
    match s with
    | [] => []
    | c :: rest =>
      if (List.take p.length (c :: rest)).map pyLower == p then
        repl ++ replaceCI fuel p repl (List.drop p.length (c :: rest))
      else
        c :: replaceCI fuel p repl rest

/-- Collapse runs of spaces, `re.sub(r"  +", " ", s)`: every maximal run of
two or more spaces becomes one space. The flag records whether the
previous emitted character was a space of such a run. -/
def collapseSpAux : Bool → List Char → List Char
  | _, [] => []
  | prevSpace, c :: rest =>
    if c == ' ' then
      if prevSpace then collapseSpAux true rest
      else ' ' :: collapseSpAux true rest
    else c :: collapseSpAux false rest

/-- Entry point of the space-collapsing pass. -/
def collapseSp (s : List Char) : List Char := collapseSpAux false s

/-- Model of `str.strip()`: drop whitespace from both ends. -/
def stripBoth (s : List Char) : List Char :=
  ((s.dropWhile isPySpace).reverse.dropWhile isPySpace).reverse

/-- Collapse newline runs, `re.sub(r"\n{3,}", "\n\n", s)`: a maximal run of
`k` newlines becomes `min k 2` newlines (runs of one or two are kept as
they are, longer runs become exactly two). `k` counts the pending run. -/
def collapseNLAux : Nat → List Char → List Char
  | k, [] => List.replicate (min k 2) '\n'
  | k, c :: rest =>
    if c == '\n' then collapseNLAux (k + 1) rest
    else List.replicate (min k 2) '\n' ++ c :: collapseNLAux 0 rest

/-- Entry point of the newline-collapsing pass. -/
def collapseNL (s : List Char) : List Char := collapseNLAux 0 s

/-- Step 3 of the source: spaces, then `strip`, then newlines. -/
def normalizeWs (s : List Char) : List Char := collapseNL (stripBoth (collapseSp s))

/-- Decimal digit character. -/
def digitChar (n : Nat) : Char := Char.ofNat (48 + n)

/-- Decimal representation of a natural number (fuelled loop). -/
def natCharsAux : Nat → Nat → List Char → List Char
  | 0, _, acc => acc
  | fuel + 1, n, acc =>
    if n < 10 then digitChar n :: acc
    else natCharsAux fuel (n / 10) (digitChar (n % 10) :: acc)

/-- Decimal representation of a natural number, as `str(n)`. -/
def natChars (n : Nat) : List Char := natCharsAux (n + 1) n []

/-- Audit record, `GuardrailCheck` of `app/models/schemas.py`. -/
structure GuardrailCheck where
  passed : Bool
  flags : List (List Char)
  modifications_applied : List (List Char)
deriving DecidableEq, Repr

/-- A guardrail rule (`_Rule` of the source): name, compiled pattern,
replacement. -/
structure Rule where
  name : List Char
  pattern : RE
  replacement : List Char

/-- Currency token `(?:Rs\.?|INR|₹)`. -/
def curTok : RE :=
  RE.alt (RE.cat (litS "rs") (ropt (chC '.'))) (RE.alt (litS "inr") (litS "₹"))

/-- Currency token of the second alternative, `(?:Rs\.?|INR|₹|rupees)`. -/
def curTokR : RE :=
  RE.alt (RE.cat (litS "rs") (ropt (chC '.')))
    (RE.alt (litS "inr") (RE.alt (litS "₹") (litS "rupees")))

/-- Fractional part `(?:\.\d{1,2})?`. -/
def fracPart : RE := ropt (RE.cat (chC '.') (RE.cat dCls (ropt dCls)))

/-- Pattern of `hallucinated_exact_price`:
`(?:(?:Rs\.?|INR|₹)\s*[\d,]+(?:\.\d{1,2})?|[\d,]+(?:\.\d{1,2})?\s*(?:Rs\.?|INR|₹|rupees))`. -/
def priceRE : RE :=
  RE.alt
    (RE.cat curTok (RE.cat (RE.star sCls) (RE.cat (rplus dComma) fracPart)))
    (RE.cat (rplus dComma) (RE.cat fracPart (RE.cat (RE.star sCls) curTokR)))

/-- Time unit `(?:hours?|days?|weeks?|months?)`. -/
def timeUnit : RE :=
  RE.alt (RE.cat (litS "hour") (ropt (chC 's')))
    (RE.alt (RE.cat (litS "day") (ropt (chC 's')))
      (RE.alt (RE.cat (litS "week") (ropt (chC 's')))
        (RE.cat (litS "month") (ropt (chC 's')))))

/-- Pattern of `hallucinated_timeline`:
`\b(?:within|in)\s+\d+\s*(?:hours?|days?|weeks?|months?)\b`. -/
def timelineRE : RE :=
  RE.cat RE.wb
    (RE.cat (RE.alt (litS "within") (litS "in"))
      (RE.cat (rplus sCls)
        (RE.cat (rplus dCls)
          (RE.cat (RE.star sCls) (RE.cat timeUnit RE.wb)))))

/-- Ending `guarant(?:ee|y)`. -/
def guarantEnd : RE := RE.cat (litS "guarant") (RE.alt (litS "ee") (chC 'y'))

/-- Pattern of `absolute_guarantee`:
`\b(?:100\s*%\s*guarant(?:ee|y)|lifetime\s+(?:guarant(?:ee|y)|warranty)|permanent(?:ly)?\s+(?:fix|solv|cur)|never\s+(?:leak|seep|damage)\s+again)\b`. -/
def guaranteeRE : RE :=
  RE.cat RE.wb
    (RE.cat
      (RE.alt
        (RE.cat (litS "100")
          (RE.cat (RE.star sCls)
            (RE.cat (chC '%') (RE.cat (RE.star sCls) guarantEnd))))
        (RE.alt
          (RE.cat (litS "lifetime")
            (RE.cat (rplus sCls) (RE.alt guarantEnd (litS "warranty"))))
          (RE.alt
            (RE.cat (litS "permanent")
              (RE.cat (ropt (litS "ly"))
                (RE.cat (rplus sCls)
                  (RE.alt (litS "fix") (RE.alt (litS "solv") (litS "cur"))))))
            (RE.cat (litS "never")
              (RE.cat (rplus sCls)
                (RE.cat (RE.alt (litS "leak") (RE.alt (litS "seep") (litS "damage")))
                  (RE.cat (rplus sCls) (litS "again"))))))))
      RE.wb)

/-- Pattern of `scare_tactics`:
`\b(?:your\s+(?:house|home|building)\s+(?:will|could)\s+collapse|extremely\s+dangerous|life[- ]threatening\s+(?:situation|condition))\b`. -/
def scareRE : RE :=
  RE.cat RE.wb
    (RE.cat
      (RE.alt
        (RE.cat (litS "your")
          (RE.cat (rplus sCls)
            (RE.cat (RE.alt (litS "house") (RE.alt (litS "home") (litS "building")))
              (RE.cat (rplus sCls)
                (RE.cat (RE.alt (litS "will") (litS "could"))
                  (RE.cat (rplus sCls) (litS "collapse")))))))
        (RE.alt
          (RE.cat (litS "extremely") (RE.cat (rplus sCls) (litS "dangerous")))
          (RE.cat (litS "life")
            (RE.cat (RE.cls (fun c => c == '-' || c == ' '))
              (RE.cat (litS "threatening")
                (RE.cat (rplus sCls)
                  (RE.alt (litS "situation") (litS "condition"))))))))
      RE.wb)

/-- Pattern of `competitor_bashing`:
`\b(?:other\s+companies\s+(?:will|would)\s+(?:cheat|scam|overcharge|rip\s*off))\b`. -/
def competitorRE : RE :=
  RE.cat RE.wb
    (RE.cat
      (RE.cat (litS "other")
        (RE.cat (rplus sCls)
          (RE.cat (litS "companies")
            (RE.cat (rplus sCls)
              (RE.cat (RE.alt (litS "will") (litS "would"))
                (RE.cat (rplus sCls)
                  (RE.alt (litS "cheat")
                    (RE.alt (litS "scam")
                      (RE.alt (litS "overcharge")
                        (RE.cat (litS "rip")
                          (RE.cat (RE.star sCls) (litS "off"))))))))))))
      RE.wb)

/-- The `_RULES` table of the source, in declared order. -/
def _RULES : List Rule :=
  [ ⟨"hallucinated_exact_price".toList, priceRE,
      "(pricing will be determined after a professional on-site assessment)".toList⟩,
    ⟨"hallucinated_timeline".toList, timelineRE,
      "(timeline will be confirmed after assessment)".toList⟩,
    ⟨"absolute_guarantee".toList, guaranteeRE,
      "(long-lasting solutions backed by professional assessment)".toList⟩,
    ⟨"scare_tactics".toList, scareRE,
      "(we recommend a professional assessment to evaluate the situation)".toList⟩,
    ⟨"competitor_bashing".toList, competitorRE,
      "(we focus on transparency and professional service)".toList⟩ ]

/-- The `_BLOCKED_PHRASES` table of the source: (phrase, replacement). -/
def _BLOCKED_PHRASES : List (List Char × List Char) :=
  [ ("i am an ai".toList, []),
    ("as an ai language model".toList, []),
    ("as a large language model".toList, []),
    ("i don".toList ++ apos :: "t have access to real-time".toList, []) ]

/-- One `findall`-plus-`sub` pass of a rule over the current text: the
substituted text and the number of matches. -/
def ruleScan (r : Rule) (s : List Char) : List Char × Nat :=
  scanSub (s.length + 1) r.pattern r.replacement none s

/-- Flag string of a pattern rule,
`f"{rule.name}: matched {len(matches)} occurrence(s)"`. -/
def patFlag (name : List Char) (n : Nat) : List Char :=
  name ++ ": matched ".toList ++ natChars n ++ " occurrence(s)".toList

/-- Modification string of a pattern rule,
`f"Replaced {rule.name} matches with safe alternative."`. -/
def patMod (name : List Char) : List Char :=
  "Replaced ".toList ++ name ++ " matches with safe alternative.".toList

/-- Flag string of a blocked phrase, `f"blocked_phrase: {phrase!r}"`
shape: `blocked_phrase: 'phrase'`. -/
def phraseFlag (p : List Char) : List Char :=
  "blocked_phrase: ".toList ++ apos :: p ++ [apos]

/-- Modification string of a blocked phrase,
`f"Removed blocked phrase: '{phrase}'"`. -/
def phraseMod (p : List Char) : List Char :=
  "Removed blocked phrase: ".toList ++ apos :: p ++ [apos]

/-- Engine state while folding over the rule tables:
(cleaned, flags, modifications). -/
abbrev EngineSt := List Char × List (List Char) × List (List Char)

/-- One iteration of the regex-rule loop (step 1 of `apply_guardrails`):
`findall`, and on a hit the flag, the substitution and the modification
entry (the count reported in the flag is taken before the substitution). -/
def patternStep (st : EngineSt) (r : Rule) : EngineSt :=
  if (ruleScan r st.1).2 > 0 then
    ((ruleScan r st.1).1,
     st.2.1 ++ [patFlag r.name (ruleScan r st.1).2],
     st.2.2 ++ [patMod r.name])
  else st

/-- One iteration of the blocked-phrase loop (step 2 of `apply_guardrails`).
Detection reads `lowerCleaned`, the lowercased text computed once before
the loop; the replacement rewrites the current cleaned text. -/
def phraseStep (lowerCleaned : List Char) (st : EngineSt) (pr : List Char × List Char) :
    EngineSt :=
  if containsSub pr.1 lowerCleaned then
    (replaceCI (st.1.length + 1) pr.1 pr.2 st.1,
     st.2.1 ++ [phraseFlag pr.1], st.2.2 ++ [phraseMod pr.1])
  else st

/-- The engine, `apply_guardrails` of the source: regex rules in declared
order, then blocked phrases against the snapshot `lower_cleaned`, then
whitespace normalisation, then the audit record. -/
def apply_guardrails (draft_reply : List Char) : List Char × GuardrailCheck :=
  let st1 := _RULES.foldl patternStep (draft_reply, [], [])
  let lowerCleaned := st1.1.map pyLower
  let st2 := _BLOCKED_PHRASES.foldl (phraseStep lowerCleaned) st1
  let cleaned := normalizeWs st2.1
  let passed := st2.2.1.length == 0
  (cleaned, ⟨passed, st2.2.1, st2.2.2⟩)

/-- Cleaned text alone after cascading the regex rules, used to state what
the loop of `apply_guardrails` computes. -/
def patCascade : List Rule → List Char → List Char
  | [], s => s
  | r :: rs, s =>
    if (ruleScan r s).2 > 0 then patCascade rs (ruleScan r s).1 else patCascade rs s

/-- Regex rules that trigger during the cascade, in table order, each with
the match count seen at its turn (on the output of the earlier rules). -/
def patTrig : List Rule → List Char → List (List Char × Nat)
  | [], _ => []
  | r :: rs, s =>
    if (ruleScan r s).2 > 0 then
      (r.name, (ruleScan r s).2) :: patTrig rs (ruleScan r s).1
    else patTrig rs s

/-- Cleaned text alone after the blocked-phrase loop; `lc` is the lowercase
snapshot the loop of the source reads for detection. -/
def phraseCascade (lc : List Char) : List (List Char × List Char) → List Char → List Char
  | [], s => s
  | pr :: ps, s =>
    if containsSub pr.1 lc then
      phraseCascade lc ps (replaceCI (s.length + 1) pr.1 pr.2 s)
    else phraseCascade lc ps s

/-- Phrases detected against the lowercase snapshot, in table order. -/
def detectedPhrases (lc : List Char) (ps : List (List Char × List Char)) : List (List Char) :=
  (ps.filter (fun pr => containsSub pr.1 lc)).map Prod.fst

/-- Phrase-loop iteration that follows the words of the specification for
claim C2: detection reads the lowercased view of the current cleaned text,
recomputed at every iteration, so a later phrase observes the effect of
earlier phrase replacements. The source instead computes the lowercase
view once before the loop; this variant exists only to compare the two
behaviours. -/
def phraseStepCascadeSpec (st : EngineSt) (pr : List Char × List Char) : EngineSt :=
  if containsSub pr.1 (st.1.map pyLower) then
    (replaceCI (st.1.length + 1) pr.1 pr.2 st.1,
     st.2.1 ++ [phraseFlag pr.1], st.2.2 ++ [phraseMod pr.1])
  else st

/-- Engine variant built on `phraseStepCascadeSpec` (specification reading
of claim C2); identical to `apply_guardrails` in every other step. -/
def applyGuardrailsSpecCascade (draft_reply : List Char) : List Char × GuardrailCheck :=
  let st1 := _RULES.foldl patternStep (draft_reply, [], [])
  let st2 := _BLOCKED_PHRASES.foldl phraseStepCascadeSpec st1
  let cleaned := normalizeWs st2.1
  let passed := st2.2.1.length == 0
  (cleaned, ⟨passed, st2.2.1, st2.2.2⟩)

/-- Predicate of claim C6: some two consecutive spaces occur. -/
def hasDoubleSpace : List Char → Bool
  | c1 :: c2 :: rest => (c1 == ' ' && c2 == ' ') || hasDoubleSpace (c2 :: rest)
  | _ => false

/-- Predicate of claim C6: some three consecutive newlines occur. -/
def hasTripleNL : List Char → Bool
  | c1 :: c2 :: c3 :: rest =>
    (c1 == '\n' && c2 == '\n' && c3 == '\n') || hasTripleNL (c2 :: c3 :: rest)
  | _ => false

/-- Predicate of claim C6: no leading or trailing Python whitespace. -/
def isStripped (l : List Char) : Bool :=
  (match l.head? with | some c => !isPySpace c | none => true) &&
  (match l.getLast? with | some c => !isPySpace c | none => true)

/-- Unrolling of the regex-rule loop: its cleaned text is the cascade and
its flag and modification lists collect one formatted entry per triggering
rule, appended to the incoming lists. -/
theorem foldl_patternStep (rs : List Rule) (s : List Char) (f m : List (List Char)) :
    rs.foldl patternStep (s, f, m) =
      (patCascade rs s,
       f ++ (patTrig rs s).map (fun p => patFlag p.1 p.2),
       m ++ (patTrig rs s).map (fun p => patMod p.1)) := by
  induction rs generalizing s f m with
  | nil => simp [patCascade, patTrig]
  | cons r rs ih =>
    simp only [List.foldl_cons, patternStep, patCascade, patTrig]
    by_cases h : (ruleScan r s).2 > 0 <;>
      simp [h, ih, List.append_assoc]

/-- Unrolling of the blocked-phrase loop: its cleaned text is the phrase
cascade and its flag and modification lists collect one formatted entry per
phrase detected against the fixed lowercase snapshot `lc`. -/
theorem foldl_phraseStep (lc : List Char) (ps : List (List Char × List Char))
    (s : List Char) (f m : List (List Char)) :
    ps.foldl (phraseStep lc) (s, f, m) =
      (phraseCascade lc ps s,
       f ++ (detectedPhrases lc ps).map phraseFlag,
       m ++ (detectedPhrases lc ps).map phraseMod) := by
  induction ps generalizing s f m with
  | nil => simp [phraseCascade, detectedPhrases]
  | cons pr ps ih =>
    simp only [List.foldl_cons, phraseStep, phraseCascade, detectedPhrases, List.filter_cons]
    by_cases h : containsSub pr.1 lc <;>
      simp [h, ih, detectedPhrases, List.append_assoc]

/-- Lowercase snapshot the phrase loop reads: the cleaned text after the
regex rules, lowercased once. -/
def lowerSnapshot (d : List Char) : List Char := (patCascade _RULES d).map pyLower

/-- Flags of a run, described rule by rule. -/
def flagsOf (d : List Char) : List (List Char) :=
  (patTrig _RULES d).map (fun p => patFlag p.1 p.2) ++
    (detectedPhrases (lowerSnapshot d) _BLOCKED_PHRASES).map phraseFlag

/-- Modification entries of a run, described rule by rule. -/
def modsOf (d : List Char) : List (List Char) :=
  (patTrig _RULES d).map (fun p => patMod p.1) ++
    (detectedPhrases (lowerSnapshot d) _BLOCKED_PHRASES).map phraseMod

/-- Cleaned text of a run: regex cascade, phrase cascade against the
snapshot, whitespace normalisation. -/
def cleanedOf (d : List Char) : List Char :=
  normalizeWs (phraseCascade (lowerSnapshot d) _BLOCKED_PHRASES (patCascade _RULES d))

/-- Characterisation of the engine as the three rule-by-rule descriptions. -/
theorem apply_guardrails_eq (d : List Char) :
    apply_guardrails d =
      (cleanedOf d, ⟨(flagsOf d).length == 0, flagsOf d, modsOf d⟩) := by
  simp only [apply_guardrails, foldl_patternStep, List.nil_append, foldl_phraseStep,
    flagsOf, modsOf, cleanedOf, lowerSnapshot]

/-- Unfolding of the double-space window over a cons cell. -/
theorem hasDouble_cons (c : Char) (l : List Char) :
    hasDoubleSpace (c :: l) =
      ((c == ' ' && l.head? == some ' ') || hasDoubleSpace l) := by
  cases l <;> simp [hasDoubleSpace]

/-- Tail of a double-space-free list is double-space free. -/
theorem hasDouble_tail {c : Char} {l : List Char}
    (h : hasDoubleSpace (c :: l) = false) : hasDoubleSpace l = false := by
  rw [hasDouble_cons] at h
  exact (Bool.or_eq_false_iff.mp h).2

/-- Cons cell whose head is not a space adds no double-space window. -/
theorem hasDouble_cons_ne {c : Char} (h : c ≠ ' ') (l : List Char) :
    hasDoubleSpace (c :: l) = hasDoubleSpace l := by
  rw [hasDouble_cons]
  cases hl : l.head? <;> simp [h]

/-- Space in front of a list not starting with a space adds no window. -/
theorem hasDouble_cons_space {l : List Char} (h : l.head? ≠ some ' ') :
    hasDoubleSpace (' ' :: l) = hasDoubleSpace l := by
  rw [hasDouble_cons]
  cases hl : l.head? with
  | none => simp
  | some x =>
    have hx : x ≠ ' ' := fun hx => h (hx ▸ hl)
    simp [hx]

/-- Unfolding equations of `collapseSpAux` (space head, both states, and
non-space head). -/
theorem collapseSpAux_false_space (rest : List Char) :
    collapseSpAux false (' ' :: rest) = ' ' :: collapseSpAux true rest := rfl

/-- Unfolding of `collapseSpAux` in the run state over a space. -/
theorem collapseSpAux_true_space (rest : List Char) :
    collapseSpAux true (' ' :: rest) = collapseSpAux true rest := rfl

/-- Unfolding of `collapseSpAux` over a non-space character. -/
theorem collapseSpAux_cons_ne {c : Char} (h : c ≠ ' ') (b : Bool) (rest : List Char) :
    collapseSpAux b (c :: rest) = c :: collapseSpAux false rest := by
  simp [collapseSpAux, h]

/-- Head of the space-run state of `collapseSpAux` is never a space. -/
theorem collapseSpAux_true_head (s : List Char) :
    (collapseSpAux true s).head? ≠ some ' ' := by
  induction s with
  | nil => simp [collapseSpAux]
  | cons c rest ih =>
    by_cases h : c = ' '
    · subst h; rw [collapseSpAux_true_space]; exact ih
    · rw [collapseSpAux_cons_ne h]; simp [h]

/-- The space-collapsing pass leaves no two consecutive spaces. -/
theorem hasDouble_collapseSpAux (s : List Char) :
    ∀ b, hasDoubleSpace (collapseSpAux b s) = false := by
  induction s with
  | nil => intro b; simp [collapseSpAux, hasDoubleSpace]
  | cons c rest ih =>
    intro b
    by_cases h : c = ' '
    · subst h
      cases b with
      | true => rw [collapseSpAux_true_space]; exact ih true
      | false =>
        rw [collapseSpAux_false_space, hasDouble_cons_space (collapseSpAux_true_head rest)]
        exact ih true
    · rw [collapseSpAux_cons_ne h, hasDouble_cons_ne h]
      exact ih false

/-- On a text without double spaces the space-collapsing pass is the
identity (in the run state provided the head is not a space). -/
theorem collapseSpAux_eq_self (s : List Char) :
    (hasDoubleSpace s = false → collapseSpAux false s = s) ∧
    (hasDoubleSpace s = false → s.head? ≠ some ' ' → collapseSpAux true s = s) := by
  induction s with
  | nil => simp [collapseSpAux]
  | cons c rest ih =>
    constructor
    · intro h
      by_cases hc : c = ' '
      · subst hc
        have hrest : rest.head? ≠ some ' ' := by
          intro heq
          rw [hasDouble_cons, heq] at h
          simp at h
        rw [collapseSpAux_false_space, ih.2 (hasDouble_tail h) hrest]
      · rw [collapseSpAux_cons_ne hc, ih.1 (hasDouble_tail h)]
    · intro h hhead
      have hc : c ≠ ' ' := by simpa using hhead
      rw [collapseSpAux_cons_ne hc, ih.1 (hasDouble_tail h)]

/-- A double-space window survives prepending. -/
theorem hasDouble_cons_of {c : Char} {l : List Char}
    (h : hasDoubleSpace l = true) : hasDoubleSpace (c :: l) = true := by
  rw [hasDouble_cons, h, Bool.or_true]

/-- A double-space window survives prepending a list. -/
theorem hasDouble_append_left (a : List Char) {l : List Char}
    (h : hasDoubleSpace l = true) : hasDoubleSpace (a ++ l) = true := by
  induction a with
  | nil => exact h
  | cons x xs ih => exact List.cons_append x xs l ▸ hasDouble_cons_of ih

/-- A double-space window survives appending a list. -/
theorem hasDouble_append_right {l : List Char} (b : List Char)
    (h : hasDoubleSpace l = true) : hasDoubleSpace (l ++ b) = true := by
  induction l with
  | nil => simp [hasDoubleSpace] at h
  | cons c l ih =>
    rw [hasDouble_cons] at h
    rw [List.cons_append, hasDouble_cons]
    rcases Bool.or_eq_true_iff.mp h with h1 | h2
    · cases hl : l.head? with
      | none => rw [hl] at h1; simp at h1
      | some x =>
        rw [hl] at h1
        cases l with
        | nil => simp at hl
        | cons y ys =>
          simp only [List.head?_cons, Option.some.injEq] at hl
          subst hl
          simp only [List.cons_append, List.head?_cons]
          rw [h1, Bool.true_or]
    · rw [ih h2, Bool.or_true]

/-- A list decomposes as junk, its stripped core, junk. -/
theorem stripBoth_decomp (s : List Char) :
    ∃ a b, s = a ++ stripBoth s ++ b := by
  refine ⟨s.takeWhile isPySpace,
    (((s.dropWhile isPySpace).reverse.takeWhile isPySpace)).reverse, ?_⟩
  conv_lhs => rw [← List.takeWhile_append_dropWhile isPySpace s]
  rw [List.append_assoc]
  congr 1
  conv_lhs => rw [← List.reverse_reverse (s.dropWhile isPySpace),
    ← List.takeWhile_append_dropWhile isPySpace (s.dropWhile isPySpace).reverse]
  rw [List.reverse_append]
  rfl

/-- Stripping never introduces a double space. -/
theorem hasDouble_stripBoth {s : List Char} (h : hasDoubleSpace s = false) :
    hasDoubleSpace (stripBoth s) = false := by
  by_contra hcon
  obtain ⟨a, b, hd⟩ := stripBoth_decomp s
  have : hasDoubleSpace (stripBoth s) = true := by
    cases hst : hasDoubleSpace (stripBoth s) with
    | true => rfl
    | false => exact absurd hst hcon
  rw [hd, hasDouble_append_right b (hasDouble_append_left a this)] at h
  cases h

/-- Head of a dropWhile result refutes the predicate. -/
theorem dropWhile_head_not {p : Char → Bool} {l : List Char} :
    ∀ {c : Char}, (l.dropWhile p).head? = some c → p c = false := by
  induction l with
  | nil => intro c h; simp at h
  | cons x xs ih =>
    intro c h
    rw [List.dropWhile_cons] at h
    by_cases hp : p x = true
    · rw [if_pos hp] at h; exact ih h
    · rw [if_neg hp] at h
      simp only [List.head?_cons, Option.some.injEq] at h
      subst h
      simpa using hp

/-- A list whose head refutes the predicate is untouched by dropWhile. -/
theorem dropWhile_eq_self_of_head {p : Char → Bool} {l : List Char}
    (h : ∀ x, l.head? = some x → p x = false) : l.dropWhile p = l := by
  cases l with
  | nil => rfl
  | cons c rest =>
    rw [List.dropWhile_cons, if_neg (by simp [h c rfl])]

/-- The stripped core starts and ends with non-whitespace. -/
theorem stripBoth_stripped (s : List Char) : isStripped (stripBoth s) = true := by
  unfold stripBoth isStripped
  cases hu : ((s.dropWhile isPySpace).reverse.dropWhile isPySpace) with
  | nil => simp
  | cons x xs =>
    have hx : isPySpace x = false := by
      apply dropWhile_head_not (l := (s.dropWhile isPySpace).reverse) (p := isPySpace)
      rw [hu]; rfl
    have h1 : (x :: xs).getLast? = ((s.dropWhile isPySpace).reverse).getLast? := by
      conv_rhs => rw [← List.takeWhile_append_dropWhile isPySpace
        (s.dropWhile isPySpace).reverse]
      rw [List.getLast?_append, hu]
      cases hgl2 : (x :: xs).getLast? with
      | none => exact absurd (List.getLast?_eq_none_iff.mp hgl2) (by simp)
      | some y => simp
    have h2 : ((s.dropWhile isPySpace).reverse).getLast? = (s.dropWhile isPySpace).head? :=
      List.getLast?_reverse _
    cases hh : (s.dropWhile isPySpace).head? with
    | none =>
      rw [hh] at h2
      rw [h2] at h1
      exact absurd (List.getLast?_eq_none_iff.mp h1) (by simp)
    | some c =>
      have hc : isPySpace c = false := dropWhile_head_not hh
      have hz : (x :: xs).getLast? = some c := by rw [h1, h2, hh]
      rw [List.head?_reverse, List.getLast?_reverse, hz]
      simp only [List.head?_cons]
      simp [hx, hc]

/-- On an already stripped list, stripping is the identity. -/
theorem stripBoth_eq_self {s : List Char} (h : isStripped s = true) :
    stripBoth s = s := by
  unfold isStripped at h
  have h1 : ∀ x, s.head? = some x → isPySpace x = false := by
    intro x hx
    rw [hx] at h
    simp only [Bool.and_eq_true] at h
    simpa using h.1
  have h2 : ∀ x, s.getLast? = some x → isPySpace x = false := by
    intro x hx
    rw [hx] at h
    simp only [Bool.and_eq_true] at h
    simpa using h.2
  unfold stripBoth
  rw [dropWhile_eq_self_of_head h1]
  rw [dropWhile_eq_self_of_head (by
    intro x hx
    rw [List.head?_reverse] at hx
    exact h2 x hx)]
  exact List.reverse_reverse s

/-- Unfolding of the triple-newline window over two cons cells. -/
theorem hasTriple_cons (c1 c2 : Char) (l : List Char) :
    hasTripleNL (c1 :: c2 :: l) =
      ((c1 == '\n' && c2 == '\n' && l.head? == some '\n') || hasTripleNL (c2 :: l)) := by
  cases l <;> simp [hasTripleNL]

/-- A triple-newline window survives prepending one character. -/
theorem hasTriple_cons_of {x : Char} {t : List Char}
    (h : hasTripleNL t = true) : hasTripleNL (x :: t) = true := by
  cases t with
  | nil => simp [hasTripleNL] at h
  | cons a t2 =>
    cases t2 with
    | nil => simp [hasTripleNL] at h
    | cons b t3 => rw [hasTriple_cons, h, Bool.or_true]

/-- A triple-newline window survives prepending a list. -/
theorem hasTriple_append_left (a : List Char) {l : List Char}
    (h : hasTripleNL l = true) : hasTripleNL (a ++ l) = true := by
  induction a with
  | nil => exact h
  | cons x xs ih => exact List.cons_append x xs l ▸ hasTriple_cons_of ih

/-- Unfolding equation of `collapseNLAux` at the end of the input. -/
theorem collapseNLAux_nil (k : Nat) :
    collapseNLAux k [] = List.replicate (min k 2) '\n' := rfl

/-- Unfolding equation of `collapseNLAux` over a newline. -/
theorem collapseNLAux_newline (k : Nat) (rest : List Char) :
    collapseNLAux k ('\n' :: rest) = collapseNLAux (k + 1) rest := rfl

/-- Unfolding equation of `collapseNLAux` over a non-newline character. -/
theorem collapseNLAux_cons_ne {c : Char} (h : c ≠ '\n') (k : Nat) (rest : List Char) :
    collapseNLAux k (c :: rest) =
      List.replicate (min k 2) '\n' ++ c :: collapseNLAux 0 rest := by
  simp [collapseNLAux, h]

/-- With a pending newline run the output starts with a newline. -/
theorem collapseNLAux_head_pos (l : List Char) :
    ∀ k, 1 ≤ k → (collapseNLAux k l).head? = some '\n' := by
  induction l with
  | nil =>
    intro k hk
    rw [collapseNLAux_nil]
    have hm : min k 2 = 1 ∨ min k 2 = 2 := by omega
    rcases hm with h | h <;> rw [h] <;> rfl
  | cons c rest ih =>
    intro k hk
    by_cases h : c = '\n'
    · subst h; rw [collapseNLAux_newline]; exact ih (k + 1) (by omega)
    · rw [collapseNLAux_cons_ne h]
      have hm : min k 2 = 1 ∨ min k 2 = 2 := by omega
      rcases hm with h2 | h2 <;> rw [h2] <;> rfl

/-- With no pending run the head survives up to newline collapsing. -/
theorem collapseNLAux_zero_head (l : List Char) :
    (collapseNLAux 0 l).head? =
      l.head?.map (fun c => if c == '\n' then '\n' else c) := by
  cases l with
  | nil => rfl
  | cons c rest =>
    by_cases h : c = '\n'
    · subst h
      rw [collapseNLAux_newline, collapseNLAux_head_pos rest 1 (le_refl 1)]
      rfl
    · rw [collapseNLAux_cons_ne h]
      simp [h]

/-- The newline-collapsing pass leaves no three consecutive newlines. -/
theorem hasTriple_collapseNLAux (l : List Char) :
    ∀ k, hasTripleNL (collapseNLAux k l) = false := by
  induction l with
  | nil =>
    intro k
    rw [collapseNLAux_nil]
    have hm : min k 2 = 0 ∨ min k 2 = 1 ∨ min k 2 = 2 := by omega
    rcases hm with h | h | h <;> rw [h] <;> rfl
  | cons c rest ih =>
    intro k
    by_cases h : c = '\n'
    · subst h; rw [collapseNLAux_newline]; exact ih (k + 1)
    · rw [collapseNLAux_cons_ne h]
      have hmain : hasTripleNL (c :: collapseNLAux 0 rest) = false := by
        cases hcl : collapseNLAux 0 rest with
        | nil => rfl
        | cons y ys =>
          rw [hasTriple_cons]
          have h0 := ih 0
          rw [hcl] at h0
          rw [h0]
          simp [h]
      have hm : min k 2 = 0 ∨ min k 2 = 1 ∨ min k 2 = 2 := by omega
      rcases hm with h2 | h2 | h2 <;> rw [h2]
      · simpa using hmain
      · simp [List.replicate, hasTriple_cons, h, hmain]
      · simp [List.replicate, hasTriple_cons, h, hmain]

/-- The newline-collapsing pass introduces no double space. -/
theorem hasDouble_collapseNLAux (l : List Char) :
    ∀ k, hasDoubleSpace l = false → hasDoubleSpace (collapseNLAux k l) = false := by
  induction l with
  | nil =>
    intro k _
    rw [collapseNLAux_nil]
    have hm : min k 2 = 0 ∨ min k 2 = 1 ∨ min k 2 = 2 := by omega
    rcases hm with h | h | h <;> rw [h] <;> rfl
  | cons c rest ih =>
    intro k hl
    by_cases h : c = '\n'
    · subst h; rw [collapseNLAux_newline]; exact ih (k + 1) (hasDouble_tail hl)
    · rw [collapseNLAux_cons_ne h]
      have haux := ih 0 (hasDouble_tail hl)
      have hmain : hasDoubleSpace (c :: collapseNLAux 0 rest) = false := by
        rw [hasDouble_cons, collapseNLAux_zero_head rest, haux, Bool.or_false]
        by_cases hc : c = ' '
        · subst hc
          cases hr : rest.head? with
          | none => rfl
          | some x =>
            by_cases hx : x = ' '
            · subst hx
              rw [hasDouble_cons, hr] at hl
              simp at hl
            · by_cases hx2 : x = '\n' <;> simp [hx, hx2]
        · simp [hc]
      have hm : min k 2 = 0 ∨ min k 2 = 1 ∨ min k 2 = 2 := by omega
      rcases hm with h2 | h2 | h2 <;> rw [h2]
      · simpa using hmain
      · simp [List.replicate, hasDouble_cons, hmain]
      · simp [List.replicate, hasDouble_cons, hmain]

/-- The newline-collapsing pass keeps a non-newline last character. -/
theorem collapseNLAux_getLast (l : List Char) :
    ∀ k, l.getLast? ≠ some '\n' → l ≠ [] →
      (collapseNLAux k l).getLast? = l.getLast? := by
  induction l with
  | nil => intro k _ hne; exact absurd rfl hne
  | cons c rest ih =>
    intro k hl _
    cases hrest : rest with
    | nil =>
      subst hrest
      have hc : c ≠ '\n' := by simpa using hl
      rw [collapseNLAux_cons_ne hc]
      rw [show collapseNLAux 0 ([] : List Char) = [] from rfl]
      rw [List.getLast?_append]
      simp
    | cons y ys =>
      subst hrest
      by_cases h : c = '\n'
      · subst h
        rw [collapseNLAux_newline]
        rw [List.getLast?_cons_cons] at hl ⊢
        exact ih (k + 1) hl (by simp)
      · rw [collapseNLAux_cons_ne h]
        rw [List.getLast?_cons_cons] at hl
        have hih := ih 0 hl (by simp)
        rw [List.getLast?_append, List.getLast?_cons_cons]
        cases haux : collapseNLAux 0 (y :: ys) with
        | nil =>
          rw [haux] at hih
          exact absurd (List.getLast?_eq_none_iff.mp hih.symm) (by simp)
        | cons a as =>
          rw [haux] at hih
          rw [List.getLast?_cons_cons, hih]
          cases hgl : (y :: ys).getLast? with
          | none => exact absurd (List.getLast?_eq_none_iff.mp hgl) (by simp)
          | some z => rfl

/-- On a text whose pending run plus body has no triple newline the
newline-collapsing pass is the identity. -/
theorem collapseNLAux_eq_self (l : List Char) :
    ∀ k, k ≤ 2 → hasTripleNL (List.replicate k '\n' ++ l) = false →
      collapseNLAux k l = List.replicate k '\n' ++ l := by
  induction l with
  | nil =>
    intro k hk _
    rw [collapseNLAux_nil, Nat.min_eq_left hk]
    simp
  | cons c rest ih =>
    intro k hk h
    by_cases hc : c = '\n'
    · subst hc
      have hrw : List.replicate k '\n' ++ '\n' :: rest
          = List.replicate (k + 1) '\n' ++ rest := by
        rw [List.replicate_succ', List.append_assoc]
        rfl
      have hk2 : k + 1 ≤ 2 := by
        by_contra hgt
        have hk22 : k = 2 := by omega
        subst hk22
        rw [show (List.replicate 2 '\n' : List Char) = ['\n', '\n'] from rfl] at h
        simp [hasTriple_cons] at h
      rw [collapseNLAux_newline, ih (k + 1) hk2 (by rw [← hrw]; exact h), hrw]
    · rw [collapseNLAux_cons_ne hc, Nat.min_eq_left hk]
      have hrest : hasTripleNL rest = false := by
        cases hr : hasTripleNL rest with
        | false => rfl
        | true =>
          rw [hasTriple_append_left (List.replicate k '\n') (hasTriple_cons_of hr)] at h
          cases h
      have := ih 0 (by omega) (by simpa using hrest)
      rw [this]
      simp

/-- The normalised text has no double space, no triple newline, and no
leading or trailing whitespace. -/
theorem normalizeWs_props (s : List Char) :
    hasDoubleSpace (normalizeWs s) = false ∧ hasTripleNL (normalizeWs s) = false ∧
      isStripped (normalizeWs s) = true := by
  unfold normalizeWs collapseNL
  refine ⟨hasDouble_collapseNLAux _ 0
    (hasDouble_stripBoth (hasDouble_collapseSpAux s false)), hasTriple_collapseNLAux _ 0, ?_⟩
  have hu := stripBoth_stripped (collapseSp s)
  cases hcase : stripBoth (collapseSp s) with
  | nil => rfl
  | cons c rest =>
    rw [hcase] at hu
    unfold isStripped at hu ⊢
    simp only [List.head?_cons, Bool.and_eq_true] at hu
    have hchead : isPySpace c = false := by simpa using hu.1
    have hcnl : c ≠ '\n' := by
      intro hcc
      subst hcc
      simp [isPySpace] at hchead
    obtain ⟨z, hz⟩ : ∃ z, (c :: rest).getLast? = some z := by
      cases hgl : (c :: rest).getLast? with
      | none => exact absurd (List.getLast?_eq_none_iff.mp hgl) (by simp)
      | some z => exact ⟨z, rfl⟩
    have hzs : isPySpace z = false := by
      rw [hz] at hu
      simpa using hu.2
    have hznl : z ≠ '\n' := by
      intro hzz
      subst hzz
      simp [isPySpace] at hzs
    rw [collapseNLAux_zero_head, collapseNLAux_getLast (c :: rest) 0
      (by rw [hz]; simp [hznl]) (by simp), hz]
    simp [hcnl, hchead, hzs]

/-- On already normalised text the whitespace pass is the identity. -/
theorem normalizeWs_eq_self {s : List Char} (h1 : hasDoubleSpace s = false)
    (h2 : hasTripleNL s = false) (h3 : isStripped s = true) : normalizeWs s = s := by
  unfold normalizeWs collapseSp collapseNL
  rw [show collapseSpAux false s = s from (collapseSpAux_eq_self s).1 h1]
  rw [stripBoth_eq_self h3]
  have := collapseNLAux_eq_self s 0 (by omega) (by simpa using h2)
  simpa using this

/-- The whitespace pass is idempotent. -/
theorem normalizeWs_idem (s : List Char) :
    normalizeWs (normalizeWs s) = normalizeWs s := by
  obtain ⟨h1, h2, h3⟩ := normalizeWs_props s
  exact normalizeWs_eq_self h1 h2 h3

/-- When no regex rule matches, the cascade is the identity and nothing
triggers. -/
theorem patTrig_nil_of_no_match {rs : List Rule} {s : List Char}
    (h : ∀ r ∈ rs, (ruleScan r s).2 = 0) :
    patCascade rs s = s ∧ patTrig rs s = [] := by
  induction rs with
  | nil => exact ⟨rfl, rfl⟩
  | cons r rs ih =>
    have h0 : (ruleScan r s).2 = 0 := h r (List.mem_cons_self r rs)
    have hrec := ih (fun r' hr' => h r' (List.mem_cons_of_mem r hr'))
    refine ⟨?_, ?_⟩ <;> simp [patCascade, patTrig, h0, hrec.1, hrec.2]

/-- When no phrase is contained in the snapshot, the phrase stage is the
identity and nothing is detected. -/
theorem detectedPhrases_nil_of_no_match {lc : List Char}
    {ps : List (List Char × List Char)}
    (h : ∀ pr ∈ ps, containsSub pr.1 lc = false) :
    detectedPhrases lc ps = [] ∧ ∀ s, phraseCascade lc ps s = s := by
  induction ps with
  | nil => exact ⟨rfl, fun _ => rfl⟩
  | cons pr ps ih =>
    have h0 : containsSub pr.1 lc = false := h pr (List.mem_cons_self pr ps)
    have hrec := ih (fun pr' hpr' => h pr' (List.mem_cons_of_mem pr hpr'))
    constructor
    · simp [detectedPhrases, List.filter_cons, h0]
      have := hrec.1
      simpa [detectedPhrases] using this
    · intro s
      simp [phraseCascade, h0, hrec.2 s]

/-- Run of the engine on text without any rule match: only the whitespace
pass acts, and the audit is empty and passing. -/
theorem apply_guardrails_clean {d : List Char}
    (hp : ∀ r ∈ _RULES, (ruleScan r d).2 = 0)
    (hq : ∀ pr ∈ _BLOCKED_PHRASES, containsSub pr.1 (d.map pyLower) = false) :
    apply_guardrails d = (normalizeWs d, ⟨true, [], []⟩) := by
  obtain ⟨hc, ht⟩ := patTrig_nil_of_no_match hp
  rw [apply_guardrails_eq]
  unfold flagsOf modsOf cleanedOf lowerSnapshot
  rw [hc, ht]
  obtain ⟨hd, hph⟩ := detectedPhrases_nil_of_no_match hq
  rw [hd, hph d]
  simp

/-- Audit invariant shared by several claims: the run passes exactly when
no flag was raised. -/
theorem passed_iff_flags_nil (d : List Char) :
    (apply_guardrails d).2.passed = true ↔ (apply_guardrails d).2.flags = [] := by
  rw [apply_guardrails_eq]
  simp [List.length_eq_zero]

/-- Audit invariant shared by several claims: one modification entry per
flag entry. -/
theorem mods_length_eq_flags_length (d : List Char) :
    (apply_guardrails d).2.modifications_applied.length =
      (apply_guardrails d).2.flags.length := by
  rw [apply_guardrails_eq]
  simp [flagsOf, modsOf]

/-- Names of the triggering rules appear as a sublist of the table names. -/
theorem patTrig_names_sublist (rs : List Rule) (s : List Char) :
    ((patTrig rs s).map Prod.fst).Sublist (rs.map Rule.name) := by
  induction rs generalizing s with
  | nil => simp [patTrig]
  | cons r rs ih =>
    by_cases h : (ruleScan r s).2 > 0
    · simp only [patTrig, if_pos h, List.map_cons]
      exact List.Sublist.cons₂ _ (ih _)
    · simp only [patTrig, if_neg h, List.map_cons]
      exact List.Sublist.cons _ (ih s)

/-- At most one trigger entry per rule of the table. -/
theorem patTrig_length_le (rs : List Rule) (s : List Char) :
    (patTrig rs s).length ≤ rs.length := by
  induction rs generalizing s with
  | nil => simp [patTrig]
  | cons r rs ih =>
    by_cases h : (ruleScan r s).2 > 0
    · simp only [patTrig, if_pos h, List.length_cons]
      exact Nat.succ_le_succ (ih _)
    · simp only [patTrig, if_neg h, List.length_cons]
      exact Nat.le_succ_of_le (ih s)

/-- Detected phrases are a sublist of the phrase table. -/
theorem detectedPhrases_sublist (lc : List Char) (ps : List (List Char × List Char)) :
    (detectedPhrases lc ps).Sublist (ps.map Prod.fst) := by
  unfold detectedPhrases
  exact List.Sublist.map Prod.fst (List.filter_sublist ps)

/-- Two colon-free lists followed by a colon agree up to the colon. -/
theorem colon_append_inj {a b u v : List Char} (ha : ':' ∉ a) (hb : ':' ∉ b)
    (h : a ++ ':' :: u = b ++ ':' :: v) : a = b := by
  induction a generalizing b with
  | nil =>
    cases b with
    | nil => rfl
    | cons y ys =>
      simp only [List.nil_append, List.cons_append, List.cons.injEq] at h
      exact absurd (h.1 ▸ List.mem_cons_self y ys) hb
  | cons x xs ih =>
    cases b with
    | nil =>
      simp only [List.cons_append, List.nil_append, List.cons.injEq] at h
      exact absurd (h.1 ▸ List.mem_cons_self x xs) ha
    | cons y ys =>
      simp only [List.cons_append, List.cons.injEq] at h
      obtain ⟨hx, htl⟩ := h
      subst hx
      rw [ih (fun hm => ha (List.mem_cons_of_mem x hm))
        (fun hm => hb (List.mem_cons_of_mem x hm)) htl]

/-- A pattern flag is its rule name, a colon, then fixed text. -/
theorem patFlag_eq_colon (a : List Char) (n : Nat) :
    patFlag a n =
      a ++ ':' :: (" matched ".toList ++ natChars n ++ " occurrence(s)".toList) := by
  unfold patFlag
  rw [show ": matched ".toList = ':' :: " matched ".toList from rfl]
  simp

/-- A phrase flag is the word blocked_phrase, a colon, then the quoted
phrase. -/
theorem phraseFlag_eq_colon (p : List Char) :
    phraseFlag p =
      "blocked_phrase".toList ++ ':' :: (' ' :: apos :: p ++ [apos]) := by
  unfold phraseFlag
  rw [show "blocked_phrase: ".toList = "blocked_phrase".toList ++ [':', ' '] from rfl]
  simp

/-- Facts about the concrete tables, checked by computation. -/
theorem rules_names_nodup : (_RULES.map Rule.name).Nodup := by decide

/-- Rule names contain no colon. -/
theorem rules_names_colon_free : ∀ a ∈ _RULES.map Rule.name, ':' ∉ a := by decide

/-- No rule is named blocked_phrase. -/
theorem rules_names_ne_blocked :
    ∀ a ∈ _RULES.map Rule.name, a ≠ "blocked_phrase".toList := by decide

/-- The blocked phrases are pairwise distinct. -/
theorem phrases_nodup : (_BLOCKED_PHRASES.map Prod.fst).Nodup := by decide

/-- The word blocked_phrase contains no colon. -/
theorem blocked_colon_free : (':' ∈ "blocked_phrase".toList) = False := by decide

/-- The flag sequence never contains a duplicate entry. -/
theorem flagsOf_nodup (d : List Char) : (flagsOf d).Nodup := by
  unfold flagsOf
  have hsub := patTrig_names_sublist _RULES d
  have hnames : ((patTrig _RULES d).map Prod.fst).Nodup := hsub.nodup rules_names_nodup
  have hmem : ∀ p ∈ patTrig _RULES d, p.1 ∈ _RULES.map Rule.name := fun p hp =>
    hsub.subset (List.mem_map_of_mem Prod.fst hp)
  have hpsub := detectedPhrases_sublist (lowerSnapshot d) _BLOCKED_PHRASES
  apply List.Nodup.append
  · apply List.Nodup.map_on ?_ (List.Nodup.of_map Prod.fst hnames)
    intro x hx y hy hxy
    rw [patFlag_eq_colon, patFlag_eq_colon] at hxy
    have h1 : x.1 = y.1 :=
      colon_append_inj (rules_names_colon_free _ (hmem x hx))
        (rules_names_colon_free _ (hmem y hy)) hxy
    exact List.inj_on_of_nodup_map hnames hx hy h1
  · apply List.Nodup.map_on ?_ (hpsub.nodup phrases_nodup)
    intro x _ y _ hxy
    rw [phraseFlag_eq_colon, phraseFlag_eq_colon] at hxy
    have h1 := List.append_cancel_left hxy
    simp only [List.cons_append] at h1
    injection h1 with h1a h1b
    injection h1b with h2a h2b
    injection h2b with h3a h3b
    exact List.append_cancel_right h3b
  · intro x hx hy
    obtain ⟨p, hp, rfl⟩ := List.mem_map.mp hx
    obtain ⟨q, _, hq2⟩ := List.mem_map.mp hy
    rw [patFlag_eq_colon, phraseFlag_eq_colon] at hq2
    have h1 : p.1 = "blocked_phrase".toList :=
      colon_append_inj (rules_names_colon_free _ (hmem p hp))
        (fun hm => blocked_colon_free ▸ hm) hq2.symm
    exact rules_names_ne_blocked _ (hmem p hp) h1

/-- The flag sequence has at most one entry per configured rule. -/
theorem flagsOf_length_le (d : List Char) : (flagsOf d).length ≤ 9 := by
  unfold flagsOf
  rw [List.length_append, List.length_map, List.length_map]
  have h1 := patTrig_length_le _RULES d
  have h2 : (detectedPhrases (lowerSnapshot d) _BLOCKED_PHRASES).length ≤
      _BLOCKED_PHRASES.length := by
    unfold detectedPhrases
    rw [List.length_map]
    exact List.length_filter_le _ _
  have h3 : _RULES.length = 5 := rfl
  have h4 : _BLOCKED_PHRASES.length = 4 := rfl
  omega

/-- Claim C1, counterexample: the double-spaced text below contains no
pattern match and no blocked phrase, the run passes with empty flags, yet
the returned cleaned text differs from the input (the whitespace pass
still rewrites it), refuting cleaned = input exactly. -/
theorem c1_counterexample :
    (∀ r ∈ _RULES, (ruleScan r ("a  b".toList)).2 = 0) ∧
    (∀ pr ∈ _BLOCKED_PHRASES,
      containsSub pr.1 (("a  b".toList).map pyLower) = false) ∧
    (apply_guardrails ("a  b".toList)).2.passed = true ∧
    (apply_guardrails ("a  b".toList)).2.flags = [] ∧
    (apply_guardrails ("a  b".toList)).1 ≠ "a  b".toList := by
  decide

/-- Claim C1, amended: on input with no pattern-rule match and no blocked
phrase the engine passes with empty flags and returns the input after
whitespace normalisation only; the input comes back exactly when it is
already whitespace-normal (no double space, no triple newline, stripped)
— in particular the empty string is returned unchanged. -/
theorem c1_no_op_on_clean_text (d : List Char)
    (hp : ∀ r ∈ _RULES, (ruleScan r d).2 = 0)
    (hq : ∀ pr ∈ _BLOCKED_PHRASES, containsSub pr.1 (d.map pyLower) = false) :
    (apply_guardrails d).2.passed = true ∧ (apply_guardrails d).2.flags = [] ∧
    (apply_guardrails d).1 = normalizeWs d ∧
    (hasDoubleSpace d = false → hasTripleNL d = false → isStripped d = true →
      (apply_guardrails d).1 = d) := by
  have h := apply_guardrails_clean hp hq
  rw [h]
  exact ⟨rfl, rfl, rfl, fun h1 h2 h3 => normalizeWs_eq_self h1 h2 h3⟩

/-- Witness for C1 at the empty string. -/
theorem c1_no_op_on_clean_text_witness :
    ((∀ r ∈ _RULES, (ruleScan r ("".toList)).2 = 0) ∧
     (∀ pr ∈ _BLOCKED_PHRASES, containsSub pr.1 (("".toList).map pyLower) = false)) ∧
    ((apply_guardrails ("".toList)).2.passed = true ∧
     (apply_guardrails ("".toList)).2.flags = [] ∧
     (apply_guardrails ("".toList)).1 = normalizeWs ("".toList) ∧
     (hasDoubleSpace ("".toList) = false → hasTripleNL ("".toList) = false →
       isStripped ("".toList) = true → (apply_guardrails ("".toList)).1 = "".toList)) :=
  ⟨⟨by decide, by decide⟩, c1_no_op_on_clean_text ("".toList) (by decide) (by decide)⟩

/-- Claim C2, counterexample: the source detects phrases against one
lowercase snapshot taken before the phrase loop, not against the current
cleaned text. On the draft below removing the phrase i-am-an-ai splices
the cleaned text into exactly the phrase as-an-ai-language-model; the
per-iteration variant demanded by the claim flags both phrases, the
source flags only the first. -/
theorem c2_counterexample :
    (apply_guardrails ("as an ai am an aii language model".toList)).2.flags =
      [phraseFlag ("i am an ai".toList)] ∧
    (applyGuardrailsSpecCascade ("as an ai am an aii language model".toList)).2.flags =
      [phraseFlag ("i am an ai".toList), phraseFlag ("as an ai language model".toList)] ∧
    (apply_guardrails ("as an ai am an aii language model".toList)).2.flags ≠
      (applyGuardrailsSpecCascade ("as an ai am an aii language model".toList)).2.flags := by
  decide

/-- Claim C2, amended: each phrase rule is detected against the lowercased
cleaned text as it stood after all pattern rules (a snapshot computed once
before the phrase loop, unaffected by earlier phrase replacements), while
the replacements themselves cascade through the current cleaned text. -/
theorem c2_phrase_stage_snapshot (d : List Char) :
    (apply_guardrails d).2.flags =
      (patTrig _RULES d).map (fun p => patFlag p.1 p.2) ++
        (_BLOCKED_PHRASES.filter
          (fun pr => containsSub pr.1 ((patCascade _RULES d).map pyLower))).map
          (fun pr => phraseFlag pr.1) ∧
    (apply_guardrails d).1 =
      normalizeWs (phraseCascade ((patCascade _RULES d).map pyLower) _BLOCKED_PHRASES
        (patCascade _RULES d)) := by
  rw [apply_guardrails_eq]
  constructor
  · simp [flagsOf, detectedPhrases, lowerSnapshot, List.map_map, Function.comp]
  · rfl

/-- Claim C3, counterexample: the input below passes the first run
unchanged except for space collapsing, and the collapsed output then
matches the scare-tactics rule, so the second application fails and
rewrites the text, refuting unconditional idempotence. -/
theorem c3_counterexample :
    (apply_guardrails ((apply_guardrails
        ("life  threatening situation".toList)).1)).2.passed = false ∧
    (apply_guardrails ((apply_guardrails
        ("life  threatening situation".toList)).1)).1 ≠
      (apply_guardrails ("life  threatening situation".toList)).1 := by
  decide

/-- Claim C3, amended: the second application returns the first output
unchanged with passed = true provided that first output matches no pattern
rule and contains no blocked phrase; in general a replacement or the
whitespace pass can splice the first output into a new match. -/
theorem c3_conditional_idempotence (d : List Char)
    (hp : ∀ r ∈ _RULES, (ruleScan r ((apply_guardrails d).1)).2 = 0)
    (hq : ∀ pr ∈ _BLOCKED_PHRASES,
      containsSub pr.1 (((apply_guardrails d).1).map pyLower) = false) :
    apply_guardrails ((apply_guardrails d).1) =
      ((apply_guardrails d).1, ⟨true, [], []⟩) := by
  have h := apply_guardrails_clean hp hq
  rw [h]
  have hc1 : (apply_guardrails d).1 = cleanedOf d := by rw [apply_guardrails_eq]
  rw [hc1]
  unfold cleanedOf
  rw [normalizeWs_idem]

/-- Witness for C3 at a short clean draft. -/
theorem c3_conditional_idempotence_witness :
    ((∀ r ∈ _RULES, (ruleScan r ((apply_guardrails ("hello".toList)).1)).2 = 0) ∧
     (∀ pr ∈ _BLOCKED_PHRASES,
       containsSub pr.1 (((apply_guardrails ("hello".toList)).1).map pyLower) = false)) ∧
    apply_guardrails ((apply_guardrails ("hello".toList)).1) =
      ((apply_guardrails ("hello".toList)).1, ⟨true, [], []⟩) :=
  ⟨⟨by decide, by decide⟩,
    c3_conditional_idempotence ("hello".toList) (by decide) (by decide)⟩

/-- Claim C4: a run passes exactly when the flag list is empty, and the
flag list has exactly one entry per distinct triggering rule — the
triggering pattern rules in table order, then the detected phrases — never
one entry per occurrence. -/
theorem c4_exhaustive_detection (d : List Char) :
    ((apply_guardrails d).2.passed = true ↔ (apply_guardrails d).2.flags = []) ∧
    (apply_guardrails d).2.flags.length =
      (patTrig _RULES d).length +
        (detectedPhrases (lowerSnapshot d) _BLOCKED_PHRASES).length := by
  refine ⟨passed_iff_flags_nil d, ?_⟩
  rw [apply_guardrails_eq]
  simp [flagsOf]

/-- Claim C5 (code bug), evaluation at the failing input: the draft
contains one occurrence of the blocked phrase i-am-an-ai, the rule
triggers and is flagged, yet the returned cleaned text still contains
the phrase — the single-pass removal splices the surrounding text into a
new occurrence. -/
theorem c5_failing_input_eval :
    containsSub ("i am an ai".toList)
      (("i am ai am an ain ai".toList).map pyLower) = true ∧
    (apply_guardrails ("i am ai am an ain ai".toList)).2.flags =
      [phraseFlag ("i am an ai".toList)] ∧
    (apply_guardrails ("i am ai am an ain ai".toList)).1 = "i am an ai".toList ∧
    containsSub ("i am an ai".toList)
      (((apply_guardrails ("i am ai am an ain ai".toList)).1).map pyLower) = true := by
  decide

/-- Claim C6: for every input the returned cleaned text has no run of two
or more spaces, no run of three or more newlines, and no leading or
trailing whitespace. -/
theorem c6_whitespace_normalization (d : List Char) :
    hasDoubleSpace ((apply_guardrails d).1) = false ∧
    hasTripleNL ((apply_guardrails d).1) = false ∧
    isStripped ((apply_guardrails d).1) = true := by
  rw [apply_guardrails_eq]
  exact normalizeWs_props _

/-- Claim C7: each pattern flag is exactly the rule name, a colon, the
match count seen when the rule ran on the cascaded text, in the fixed
occurrence(s) wording; each phrase flag is exactly blocked_phrase with the
quoted phrase; and there is one modification entry per flag, in the same
order. -/
theorem c7_audit_record_format (d : List Char) :
    (apply_guardrails d).2.flags =
      (patTrig _RULES d).map (fun p =>
        p.1 ++ ": matched ".toList ++ natChars p.2 ++ " occurrence(s)".toList) ++
      (detectedPhrases (lowerSnapshot d) _BLOCKED_PHRASES).map (fun p =>
        "blocked_phrase: ".toList ++ apos :: p ++ [apos]) ∧
    (apply_guardrails d).2.modifications_applied =
      (patTrig _RULES d).map (fun p =>
        "Replaced ".toList ++ p.1 ++ " matches with safe alternative.".toList) ++
      (detectedPhrases (lowerSnapshot d) _BLOCKED_PHRASES).map (fun p =>
        "Removed blocked phrase: ".toList ++ apos :: p ++ [apos]) ∧
    (apply_guardrails d).2.modifications_applied.length =
      (apply_guardrails d).2.flags.length := by
  refine ⟨?_, ?_, mods_length_eq_flags_length d⟩ <;> rw [apply_guardrails_eq] <;> rfl

/-- Claim C8: the engine is a pure function of the input text and the
static tables — equal inputs give byte-identical cleaned text and
identically ordered flags and modifications. -/
theorem c8_deterministic (d1 d2 : List Char) (h : d1 = d2) :
    apply_guardrails d1 = apply_guardrails d2 := by rw [h]

/-- Witness for C8 at a concrete draft. -/
theorem c8_deterministic_witness :
    ("Rs 5".toList = "Rs 5".toList) ∧
      apply_guardrails ("Rs 5".toList) = apply_guardrails ("Rs 5".toList) :=
  ⟨rfl, c8_deterministic ("Rs 5".toList) ("Rs 5".toList) rfl⟩

/-- Claim C9: the engine is total — every input produces a well-formed
(cleaned, check) pair whose audit satisfies the structural invariants. -/
theorem c9_totality (d : List Char) :
    ∃ cleaned check, apply_guardrails d = (cleaned, check) ∧
      (check.passed = true ↔ check.flags = []) ∧
      check.modifications_applied.length = check.flags.length := by
  refine ⟨(apply_guardrails d).1, (apply_guardrails d).2, ?_,
    passed_iff_flags_nil d, mods_length_eq_flags_length d⟩
  exact Prod.mk.eta.symm

/-- Claim C10: flags are duplicate-free, at most nine (five pattern rules
plus four phrases), and every pattern flag precedes every phrase flag. -/
theorem c10_flag_bound_and_order (d : List Char) :
    (apply_guardrails d).2.flags.Nodup ∧
    (apply_guardrails d).2.flags.length ≤ 9 ∧
    ∃ F P, (apply_guardrails d).2.flags = F ++ P ∧
      (∀ x ∈ F, ∃ p ∈ patTrig _RULES d, x = patFlag p.1 p.2) ∧
      (∀ x ∈ P, ∃ q ∈ _BLOCKED_PHRASES, x = phraseFlag q.1) := by
  rw [apply_guardrails_eq]
  refine ⟨flagsOf_nodup d, flagsOf_length_le d,
    (patTrig _RULES d).map (fun p => patFlag p.1 p.2),
    (detectedPhrases (lowerSnapshot d) _BLOCKED_PHRASES).map phraseFlag, ?_, ?_, ?_⟩
  · rfl
  · intro x hx
    obtain ⟨p, hp, rfl⟩ := List.mem_map.mp hx
    exact ⟨p, hp, rfl⟩
  · intro x hx
    obtain ⟨q, hq, rfl⟩ := List.mem_map.mp hx
    have hmem : q ∈ _BLOCKED_PHRASES.map Prod.fst :=
      (detectedPhrases_sublist _ _).subset hq
    obtain ⟨pr, hpr, hpr2⟩ := List.mem_map.mp hmem
    exact ⟨pr, hpr, by rw [hpr2]⟩

end Guardrails
